import Mathlib

/-!
Verification development for the `derive-where` code generator.

The Rust sources (`src/lib.rs`, `src/item.rs`) are shallowly embedded below:
token streams produced by `quote!` are modelled as small abstract syntax
trees recording exactly the identifiers, paths and sub-expressions the source
interpolates; `syn` parse streams are modelled as lists of coarse tokens;
`Result` becomes `Except`, and the two `expect`/`unreachable` panic points
become an outer `Option` layer (`none` = panic).
-/

set_option autoImplicit false

namespace DeriveWhereProof

/-- A fully qualified path (`syn::Path`), as its `::`-separated segments.
A leading `::` is represented by an empty first segment. -/
abbrev RPath := List String

/-- Structured errors produced by the generator (`syn::Error` values,
distinguished here by the call site that constructs them). -/
inductive Err where
  /-- A `syn` parse failure inside the attribute grammar (wrong token kind,
  missing `;`, trailing junk, ...). -/
  | syntaxError
  /-- `"{ident} isn't supported"` from `Trait::parse`. -/
  | unsupportedCapability (name : String)
  /-- `"Using derive_where on unit struct is not supported..."`. -/
  | unitStructUnsupported
  /-- `"Unions aren't supported."`. -/
  | unionUnsupported
  /-- `Error::repr`: a `repr` attribute that is not a parenthesized
  `Meta::List`; the specification calls this kind `InvalidDirective`.
  (The `Error` type itself lives outside the provided sources; only the
  error kind matters here.) -/
  | reprInvalid
  /-- A failure of `syn::parse2::<DeriveInput>` on the item. -/
  | itemParseError
  deriving DecidableEq

/-! ## `src/item.rs`: enum representation and discriminant resolution -/

/-- `Representation` (`src/item.rs`): the closed set of integer types that can
back an enum's discriminant. -/
inductive Representation where
  | u8 | u16 | u32 | u64 | u128 | usize
  | i8 | i16 | i32 | i64 | i128 | isize
  deriving DecidableEq

namespace Representation

/-- `Representation::parse`: recognize an identifier as one of the twelve
explicit backing widths. -/
def parse (ident : String) : Option Representation :=
  if ident = "u8" then some .u8
  else if ident = "u16" then some .u16
  else if ident = "u32" then some .u32
  else if ident = "u64" then some .u64
  else if ident = "u128" then some .u128
  else if ident = "usize" then some .usize
  else if ident = "i8" then some .i8
  else if ident = "i16" then some .i16
  else if ident = "i32" then some .i32
  else if ident = "i64" then some .i64
  else if ident = "i128" then some .i128
  else if ident = "isize" then some .isize
  else none

end Representation

/-- The argument of an attribute (`syn::Meta`), at the granularity
`Discriminant::parse` inspects it: either a parenthesized list whose
arguments parse as plain identifiers (`Meta::List` together with the
`parse_args_with(Punctuated::<Ident, Token![,]>::parse_terminated)` step),
or any other form. -/
inductive RMeta where
  /-- `Meta::List`, with its arguments as identifiers. -/
  | list (idents : List String)
  /-- `Meta::Path` or `Meta::NameValue` — not a list. -/
  | notList
  deriving DecidableEq

/-- An attribute (`syn::Attribute`), reduced to its path (as matched by
`attr.path().is_ident("repr")`) and its meta argument. -/
structure RAttr where
  path : String
  meta : RMeta
  deriving DecidableEq

/-- `Discriminant` (`src/item.rs`): how the enum's discriminant is realized. -/
inductive Discriminant where
  | unknown
  | single
  | unitDefault
  | unitRepr (r : Representation)
  | reprWidth (r : Representation)
  deriving DecidableEq

namespace Discriminant

/-- The inner loop of `Discriminant::parse` over one attribute's identifier
list: `C` sets the cross-language flag and scanning continues; the first
identifier that parses as a `Representation` is returned and the scan stops
(the Rust `break`); other identifiers are skipped. -/
def scanList (idents : List String) (is_c : Bool) : Bool × Option Representation :=
  match idents with
  | [] => (is_c, none)
  | ident :: rest =>
    if ident = "C" then scanList rest true
    else
      match Representation.parse ident with
      | some r => (is_c, some r)
      | none => scanList rest is_c

/-- The outer loop of `Discriminant::parse` over all attributes, threading
the mutable `is_c` and `has_repr` state. A `repr` attribute that is not in
list form aborts with `Error::repr`. When an attribute's list contains a
width, `has_repr` is overwritten with it (the Rust `break` only leaves the
inner loop, so a later attribute overwrites an earlier one's width). -/
def attrLoop : List RAttr → Bool → Option Representation →
    Except Err (Bool × Option Representation)
  | [], is_c, has_repr => .ok (is_c, has_repr)
  | attr :: rest, is_c, has_repr =>
    if attr.path = "repr" then
      match attr.meta with
      | .list idents =>
        let state := scanList idents is_c
        attrLoop rest state.1
          (match state.2 with
           | some r => some r
           | none => has_repr)
      | .notList => .error .reprInvalid
    else attrLoop rest is_c has_repr

end Discriminant

/-! ## The item data model (`syn::Data`, `syn::Fields`) -/

/-- A field of a named-fields shape (`syn::Field`): `ident` is an `Option`
exactly as in `syn`; inside a `FieldsNamed` the parser always fills it in,
which is what the `expect("missing field name")` in `build_for_struct`
relies on. -/
structure RField where
  ident : Option String
  deriving DecidableEq

/-- `syn::FieldsNamed`. -/
structure RFieldsNamed where
  named : List RField
  deriving DecidableEq

/-- `syn::Fields`: named fields, unnamed (tuple) fields — of which only the
count is consumed by the generator — or no fields. -/
inductive RFields where
  | named (fields : RFieldsNamed)
  | unnamed (len : Nat)
  | unit
  deriving DecidableEq

/-- `Fields::is_empty`: `true` when there are no fields at all (a unit
shape, an empty braced shape, or an empty tuple shape). -/
def RFields.is_empty : RFields → Bool
  | .named f => f.named.isEmpty
  | .unnamed n => n = 0
  | .unit => true

/-- An enum variant (`syn::Variant`): its name and its fields. -/
structure RVariant where
  ident : String
  fields : RFields
  deriving DecidableEq

/-- `syn::Data`: the shape of the item being derived for. -/
inductive RData where
  | structData (fields : RFields)
  | enumData (variants : List RVariant)
  | unionData
  deriving DecidableEq

/-- `Discriminant::parse` (`src/item.rs`): a single-variant enum is `Single`
before anything else is inspected; otherwise the attributes are scanned for
a cross-language `C` flag and an explicit backing width, and the result is
combined with whether every variant is unit-shaped. -/
def Discriminant.parse (attrs : List RAttr) (variants : List RVariant) :
    Except Err Discriminant :=
  if variants.length = 1 then .ok .single
  else
    match Discriminant.attrLoop attrs false none with
    | .error e => .error e
    | .ok (is_c, has_repr) =>
      let is_unit := variants.all (fun variant => variant.fields.is_empty)
      .ok (match has_repr with
        | some r => if is_unit then .unitRepr r else .reprWidth r
        | none => if is_unit && !is_c then .unitDefault else .unknown)

/-! ## `src/lib.rs`: the trait list and trait paths -/

/-- `Trait` (`src/lib.rs`): the closed set of derivable traits. -/
inductive Trait where
  | Clone | Copy | Debug | Eq | Hash | Ord | PartialEq | PartialOrd
  deriving DecidableEq

/-- Recognize one of the eight supported trait names (the `match` inside
`Trait::parse`). -/
def traitOfString (s : String) : Option Trait :=
  if s = "Clone" then some .Clone
  else if s = "Copy" then some .Copy
  else if s = "Debug" then some .Debug
  else if s = "Eq" then some .Eq
  else if s = "Hash" then some .Hash
  else if s = "Ord" then some .Ord
  else if s = "PartialEq" then some .PartialEq
  else if s = "PartialOrd" then some .PartialOrd
  else none

/-- Whether a string is a plain Rust identifier (letters, digits and `_`,
not starting with a digit). -/
def isIdentStr (s : String) : Bool :=
  match s.toList with
  | [] => false
  | c :: cs => (c.isAlpha || c = '_') && cs.all (fun d => d.isAlphanum || d = '_')

/-- Split a character list at every `::` separator (the semantics of
`String.splitOn "::"`, written as a structural recursion so that it
evaluates inside the kernel). -/
def splitOnColons : List Char → List Char → List String
  | [], cur => [String.mk cur.reverse]
  | ':' :: ':' :: rest, cur => String.mk cur.reverse :: splitOnColons rest []
  | c :: rest, cur => splitOnColons rest (c :: cur)

/-- A shallow model of `syn::parse_str::<Path>`: split on `::`; a leading
`::` yields an empty first segment; every other segment must be an
identifier. -/
def parsePathStr (s : String) : Option RPath :=
  match splitOnColons s.data [] with
  | [] => none
  | first :: rest =>
    if (isIdentStr first || (first = "" && !rest.isEmpty)) && rest.all isIdentStr
    then some (first :: rest)
    else none

/-- The string literal `Trait::path` feeds to `syn::parse_str` for each
trait (verbatim from the source, including `::core::copy::Copy`). -/
def Trait.pathStr : Trait → String
  | .Clone => "::core::clone::Clone"
  | .Copy => "::core::copy::Copy"
  | .Debug => "::core::fmt::Debug"
  | .Eq => "::core::cmp::Eq"
  | .Hash => "::core::hash::Hash"
  | .Ord => "::core::cmp::Ord"
  | .PartialEq => "::core::cmp::PartialEq"
  | .PartialOrd => "::core::cmp::PartialOrd"

/-- `Trait::path`: parse the qualified path string. The
`expect("failed to parse path")` panic point is the `none` case. -/
def Trait.path (t : Trait) : Option RPath :=
  parsePathStr t.pathStr

/-! ## `Trait::prepare_ord`: the `Ord`/`PartialOrd` match-arm builder -/

/-- An `Ordering` result expression as it appears in the generated tokens:
either a bare `::core::cmp::Ordering::*` or, for `PartialOrd`, the same
wrapped in `::core::option::Option::Some`. -/
inductive OrdLit where
  | bare (o : Ordering)
  | wrapped (o : Ordering)
  deriving DecidableEq

/-- The expression built for the same-variant comparison: either a result
literal, or `match path::partial_cmp(fieldTemp, fieldOther) { eqPat =>
onEqual, __cmp => __cmp }`. -/
inductive OrdBody where
  | lit (l : OrdLit)
  | matchCmp (path : RPath) (fieldTemp fieldOther : String)
      (eqPat : OrdLit) (onEqual : OrdBody)
  deriving DecidableEq

/-- The `skip` pattern used in cross-variant arms to ignore all fields:
`{ .. }` for braced shapes, `(..)` for tuples, nothing for units. -/
inductive SkipPat where
  | braces | parens | empty
  deriving DecidableEq

/-- One cross-variant arm `item_ident::variant #skip => result` of the inner
`match __other`. -/
structure OrdArm where
  itemIdent : String
  variantIdent : String
  skip : SkipPat
  result : OrdLit
  deriving DecidableEq

/-- The `match self { PartialOrd => wrap in Some, Ord => (), _ =>
unreachable }` step of `prepare_ord` that decides how `Ordering` literals
are rendered; `none` is the `unreachable` panic point. -/
def Trait.ordWrap : Trait → Option (Ordering → OrdLit)
  | .PartialOrd => some OrdLit.wrapped
  | .Ord => some OrdLit.bare
  | _ => none

/-- `Trait::prepare_ord` (`src/lib.rs`): builds the same-variant comparison
`body` — starting from the `equal` literal and, iterating the zipped field
lists in reverse, wrapping the accumulated result into one more
`matchCmp` — and the cross-variant `other` arms, one per variant index
different from this variant's own, whose result literal is chosen by
`variant.cmp(&index)`. -/
def Trait.prepare_ord (self : Trait) (item_ident : String)
    (fields_temp fields_other : List String)
    (variants : Option (Nat × List String)) (skip : SkipPat) :
    Option (OrdBody × List OrdArm) :=
  match self.path, self.ordWrap with
  | some path, some wrap =>
    let less := wrap .lt
    let equal := wrap .eq
    let greater := wrap .gt
    let body := ((fields_temp.zip fields_other).reverse).foldl
      (fun acc fp => OrdBody.matchCmp path fp.1 fp.2 equal acc)
      (OrdBody.lit equal)
    let other :=
      match variants with
      | none => []
      | some (variant, vars) =>
        vars.enum.filterMap (fun iv =>
          if variant ≠ iv.1 then
            some { itemIdent := item_ident, variantIdent := iv.2, skip := skip,
                   result :=
                     match compare variant iv.1 with
                     | .lt => less
                     | .eq => equal
                     | .gt => greater }
          else none)
    some (body, other)
  | _, _ => none

/-! Semantics of the generated ordering code. -/

/-- Select the cross-variant arm matching the other operand's variant name:
Rust `match` takes the first arm whose pattern matches. -/
def selectOtherArm (arms : List OrdArm) (variantIdent : String) : Option OrdLit :=
  (arms.find? (fun arm => arm.variantIdent == variantIdent)).map OrdArm.result

/-- Evaluate a same-variant comparison body under an oracle giving each
field pair's comparison result. The scrutinee of each `matchCmp` is the
field comparison, rendered with the same wrapping as the `eqPat` pattern it
is matched against. -/
def evalOrdBody (oracle : String → String → Ordering) : OrdBody → OrdLit
  | .lit l => l
  | .matchCmp _ ft fo eqPat rest =>
    let scrut :=
      match eqPat with
      | .bare _ => OrdLit.bare (oracle ft fo)
      | .wrapped _ => OrdLit.wrapped (oracle ft fo)
    if scrut = eqPat then evalOrdBody oracle rest else scrut

/-- Lexicographic combination of a list of field comparison results: the
first non-equal field decides. -/
def lexOrd : List Ordering → Ordering
  | [] => .eq
  | o :: rest =>
    match o with
    | .eq => lexOrd rest
    | x => x

/-! ## Generated match arms and method signatures -/

/-- The pattern root of a generated match arm: `Self`-style `Name` for a
struct, `Name::Variant` for an enum variant. -/
inductive RPat where
  | structPat (name : String)
  | variantPat (item : String) (variant : String)
  deriving DecidableEq

/-- The destructuring keys of a non-unit shape: the field names of a braced
shape or the arity of a tuple shape. -/
inductive ShapeKeys where
  | named (keys : List String)
  | tuple (len : Nat)
  deriving DecidableEq

/-- One match arm of a generated method body, as built by
`build_for_struct`, `build_for_tuple` and `build_for_unit`. Each
constructor records exactly the identifiers the corresponding `quote!`
template interpolates. -/
inductive GenArm where
  /-- `pattern { fs: ref ts } => pattern { fs: path::clone(ts) }` (and the
  tuple analogue). -/
  | cloneArm (pattern : RPat) (path : RPath) (shape : ShapeKeys)
      (fieldsTemp : List String)
  /-- `pattern => pattern` for a unit shape. -/
  | cloneUnitArm (pattern : RPat)
  /-- The `debug_struct`/`debug_tuple` builder arm. -/
  | debugArm (pattern : RPat) (debugName : String) (shape : ShapeKeys)
      (fieldsTemp : List String)
  /-- `pattern => Formatter::write_str(__f, debugName)` for a unit shape. -/
  | debugUnitArm (pattern : RPat) (debugName : String)
  /-- `pattern { .. } => { path::hash(t, __state); ... }`: hashes
  `fieldsTemp` in order. -/
  | hashArm (pattern : RPat) (path : RPath) (shape : ShapeKeys)
      (fieldsTemp : List String)
  /-- `pattern => ()` for a unit shape. -/
  | hashUnitArm (pattern : RPat)
  /-- The `Ord`/`PartialOrd` arm: destructure `self`, then
  `match __other { same-pattern => body, other-arms }`; `shape` is `none`
  for a unit shape. -/
  | ordArm (pattern : RPat) (shape : Option ShapeKeys)
      (fieldsTemp fieldsOther : List String)
      (body : OrdBody) (other : List OrdArm)
  /-- `(pattern {..}, pattern {..}) => { __cmp &= path::eq(t, o); ... }`:
  a statement block, producing no value of its own. -/
  | partialEqArm (pattern : RPat) (path : RPath) (shape : ShapeKeys)
      (fieldsTemp fieldsOther : List String)
  /-- `(pattern, pattern) => true` for a unit shape. -/
  | partialEqUnitArm (pattern : RPat)
  deriving DecidableEq

/-- A statement of the generated `hash` method body. -/
inductive HashStmt where
  /-- `path::hash(&::core::mem::discriminant(self), __state);` -/
  | hashDiscriminant (path : RPath)
  /-- `match self { arms }` -/
  | matchSelf (arms : List GenArm)
  deriving DecidableEq

/-- A generated method signature with its filled-in body, as built by
`Trait::build_signature`. -/
inductive Sig where
  /-- `fn clone(&self) -> Self { match self { arms } }` -/
  | cloneSig (arms : List GenArm)
  /-- `Copy`: empty body. -/
  | copySig
  /-- `fn fmt(...) { match self { arms } }` -/
  | debugSig (arms : List GenArm)
  /-- `Eq`: empty body. -/
  | eqSig
  /-- `fn hash<H>(...) { stmts }` -/
  | hashSig (stmts : List HashStmt)
  /-- `fn cmp(&self, __other) { match (self, __other) { arms } }` -/
  | ordSig (arms : List GenArm)
  /-- `fn eq(&self, __other) -> bool { if discriminant(self) ==
  discriminant(__other) { let mut __cmp = true; match (self, __other)
  { arms, _ => unreachable } } else { false } }` -/
  | partialEqSig (arms : List GenArm)
  /-- `fn partial_cmp(&self, __other) { match self { arms } }` -/
  | partialOrdSig (arms : List GenArm)
  deriving DecidableEq

/-- `Trait::build_signature` (`src/lib.rs`): wrap the collected arms into
the method of the corresponding trait. The `hash` method hashes the
discriminant of `self` first, unconditionally, and only then matches on
`self`. -/
def Trait.build_signature (self : Trait) (body : List GenArm) : Option Sig :=
  match self.path with
  | none => none
  | some path =>
    some (match self with
      | .Clone => .cloneSig body
      | .Copy => .copySig
      | .Debug => .debugSig body
      | .Eq => .eqSig
      | .Hash => .hashSig [.hashDiscriminant path, .matchSelf body]
      | .Ord => .ordSig body
      | .PartialEq => .partialEqSig body
      | .PartialOrd => .partialOrdSig body)

/-- `Trait::build_for_struct` (`src/lib.rs`): method body arm for a braced
shape. The field names are extracted up front — the
`expect("missing field name")` panic point is the `mapM` returning
`none` — and the `__`/`__other_` temporaries are derived from them. -/
def Trait.build_for_struct (self : Trait) (debug_name item_ident : String)
    (pattern : RPat) (variants : Option (Nat × List String))
    (fields : RFieldsNamed) : Option (List GenArm) :=
  match self.path with
  | none => none
  | some path =>
    match fields.named.mapM RField.ident with
    | none => none
    | some fieldIdents =>
      let fields_temp := fieldIdents.map (fun f => "__" ++ f)
      let fields_other := fieldIdents.map (fun f => "__other_" ++ f)
      match self with
      | .Clone => some [.cloneArm pattern path (.named fieldIdents) fields_temp]
      | .Copy => some []
      | .Debug => some [.debugArm pattern debug_name (.named fieldIdents) fields_temp]
      | .Eq => some []
      | .Hash => some [.hashArm pattern path (.named fieldIdents) fields_temp]
      | .Ord =>
        match self.prepare_ord item_ident fields_temp fields_other variants .braces with
        | none => none
        | some bo =>
          some [.ordArm pattern (some (.named fieldIdents)) fields_temp fields_other bo.1 bo.2]
      | .PartialEq =>
        some [.partialEqArm pattern path (.named fieldIdents) fields_temp fields_other]
      | .PartialOrd =>
        match self.prepare_ord item_ident fields_temp fields_other variants .braces with
        | none => none
        | some bo =>
          some [.ordArm pattern (some (.named fieldIdents)) fields_temp fields_other bo.1 bo.2]

/-- `Trait::build_for_tuple` (`src/lib.rs`): method body arm for a tuple
shape; temporaries are derived from field positions. -/
def Trait.build_for_tuple (self : Trait) (debug_name item_ident : String)
    (pattern : RPat) (variants : Option (Nat × List String))
    (len : Nat) : Option (List GenArm) :=
  match self.path with
  | none => none
  | some path =>
    let fields_temp := (List.range len).map (fun i => "__" ++ toString i)
    let fields_other := (List.range len).map (fun i => "__other_" ++ toString i)
    match self with
    | .Clone => some [.cloneArm pattern path (.tuple len) fields_temp]
    | .Copy => some []
    | .Debug => some [.debugArm pattern debug_name (.tuple len) fields_temp]
    | .Eq => some []
    | .Hash => some [.hashArm pattern path (.tuple len) fields_temp]
    | .Ord =>
      match self.prepare_ord item_ident fields_temp fields_other variants .parens with
      | none => none
      | some bo =>
        some [.ordArm pattern (some (.tuple len)) fields_temp fields_other bo.1 bo.2]
    | .PartialEq =>
      some [.partialEqArm pattern path (.tuple len) fields_temp fields_other]
    | .PartialOrd =>
      match self.prepare_ord item_ident fields_temp fields_other variants .parens with
      | none => none
      | some bo =>
        some [.ordArm pattern (some (.tuple len)) fields_temp fields_other bo.1 bo.2]

/-- `Trait::build_for_unit` (`src/lib.rs`): method body arm for a unit
shape. Unlike the other two builders it never consults `Trait::path`. -/
def Trait.build_for_unit (self : Trait) (debug_name item_ident : String)
    (pattern : RPat) (variants : Option (Nat × List String)) :
    Option (List GenArm) :=
  match self with
  | .Clone => some [.cloneUnitArm pattern]
  | .Copy => some []
  | .Debug => some [.debugUnitArm pattern debug_name]
  | .Eq => some []
  | .Hash => some [.hashUnitArm pattern]
  | .Ord =>
    match self.prepare_ord item_ident [] [] variants .empty with
    | none => none
    | some bo => some [.ordArm pattern none [] [] bo.1 bo.2]
  | .PartialEq => some [.partialEqUnitArm pattern]
  | .PartialOrd =>
    match self.prepare_ord item_ident [] [] variants .empty with
    | none => none
    | some bo => some [.ordArm pattern none [] [] bo.1 bo.2]

/-- `Trait::generate_body` (`src/lib.rs`): dispatch on the item's shape,
collect one arm list per variant (a single one for non-enum shapes), refuse
unit structs and unions, and wrap the result into the trait's method
signature. -/
def Trait.generate_body (self : Trait) (name : String) (data : RData) :
    Option (Except Err Sig) :=
  let body? : Option (Except Err (List GenArm)) :=
    match data with
    | .structData fields =>
      let pattern := RPat.structPat name
      match fields with
      | .named f => (self.build_for_struct name name pattern none f).map Except.ok
      | .unnamed n => (self.build_for_tuple name name pattern none n).map Except.ok
      | .unit => some (.error .unitStructUnsupported)
    | .enumData variants =>
      let variantIdents := variants.map RVariant.ident
      (variants.enum.mapM (fun (iv : Nat × RVariant) =>
        let pattern := RPat.variantPat name iv.2.ident
        match iv.2.fields with
        | .named f =>
          self.build_for_struct iv.2.ident name pattern (some (iv.1, variantIdents)) f
        | .unnamed n =>
          self.build_for_tuple iv.2.ident name pattern (some (iv.1, variantIdents)) n
        | .unit =>
          self.build_for_unit iv.2.ident name pattern
            (some (iv.1, variantIdents)))).map
        (fun (armLists : List (List GenArm)) => Except.ok armLists.flatten)
    | .unionData => some (.error .unionUnsupported)
  match body? with
  | none => none
  | some (.error e) => some (.error e)
  | some (.ok arms) => (self.build_signature arms).map Except.ok

/-! ## The attribute grammar (`DeriveWhere::parse`, `Generic::parse`) -/

/-- A token of the attribute's parse stream, at the granularity the
attribute grammar distinguishes them. -/
inductive Tok where
  | ident (s : String)
  | comma
  | semi
  | colon
  | other
  deriving DecidableEq

/-- `Punctuated::<Trait, Token![,]>::parse_terminated` with `Trait::parse`
inlined: `Trait::parse` reads one identifier and requires it to be one of
the eight supported names; `parse_terminated` accepts the empty stream,
requires a comma between elements, tolerates a trailing comma, and — being
"terminated" — succeeds only when the whole stream is consumed. -/
def parseTraitsTerminated : List Tok → Except Err (List Trait)
  | [] => .ok []
  | .ident s :: rest =>
    match traitOfString s with
    | none => .error (.unsupportedCapability s)
    | some t =>
      match rest with
      | [] => .ok [t]
      | .comma :: rest2 =>
        match parseTraitsTerminated rest2 with
        | .ok ts => .ok (t :: ts)
        | .error e => .error e
      | _ => .error .syntaxError
  | _ => .error .syntaxError

/-- A predicate `bounded_ty : bounds` (`syn::PredicateType`), with types
and bounds reduced to identifiers/paths. -/
structure RPredicateType where
  bounded_ty : String
  bounds : List RPath
  deriving DecidableEq

/-- `Generic` (`src/lib.rs`): either a verbatim user bound or a bare type
to be bound by each implemented trait. -/
inductive Generic where
  | coustomBound (p : RPredicateType)
  | noBound (ty : String)
  deriving DecidableEq

/-- `Generic::parse`: speculatively parse a `WherePredicate` — modelled at
the granularity `type-ident : bound-ident` — and fall back to parsing a
bare type (a single identifier). Lifetime and equality predicates, and
multi-segment types, are below this model's granularity. -/
def parseGeneric : List Tok → Except Err (Generic × List Tok)
  | .ident t :: .colon :: .ident b :: rest =>
    .ok (.coustomBound ⟨t, [[b]]⟩, rest)
  | .ident t :: rest => .ok (.noBound t, rest)
  | _ => .error .syntaxError

/-- `Punctuated::<Generic, Token![,]>::parse_separated_nonempty`: at least
one element, a comma strictly between elements, no trailing comma, and the
rest of the stream is handed back. The fuel argument only bounds the
recursion; `parseGeneric` consumes at least one token, so fuel
`length + 1` is never exhausted. -/
def parseGenericsAux : Nat → List Tok → Except Err (List Generic × List Tok)
  | 0, _ => .error .syntaxError
  | fuel + 1, toks =>
    match parseGeneric toks with
    | .error e => .error e
    | .ok (g, rest) =>
      match rest with
      | .comma :: rest2 =>
        match parseGenericsAux fuel rest2 with
        | .ok (gs, rest3) => .ok (g :: gs, rest3)
        | .error e => .error e
      | _ => .ok ([g], rest)

/-- `DeriveWhere` (`src/lib.rs`): the parsed attribute — an optional bound
list and the requested traits. -/
structure DeriveWhere where
  generics : Option (List Generic)
  traits : List Trait
  deriving DecidableEq

/-- `DeriveWhere::parse` (`src/lib.rs`): first try to parse the whole input
as a terminated trait list on a fork; on success there are no generics. On
failure, re-parse as a nonempty comma-separated bound list, a required
`;`, then a terminated trait list. -/
def DeriveWhere.parse (toks : List Tok) : Except Err DeriveWhere :=
  match parseTraitsTerminated toks with
  | .ok traits => .ok ⟨none, traits⟩
  | .error _ =>
    match parseGenericsAux (toks.length + 1) toks with
    | .error e => .error e
    | .ok (gens, rest) =>
      match rest with
      | .semi :: rest2 =>
        match parseTraitsTerminated rest2 with
        | .ok traits => .ok ⟨some gens, traits⟩
        | .error e => .error e
      | _ => .error .syntaxError

/-! ## The orchestrator (`derive_where_internal`) -/

/-- The pieces of `syn::DeriveInput` the generator destructures: the item's
name, its original `where` clause (from `generics.split_for_impl()`), and
its data. -/
structure RDeriveInput where
  ident : String
  whereClause : Option (List RPredicateType)
  data : RData
  deriving DecidableEq

/-- One generated implementation block: the trait, its path, the attached
`where` clause and the signature-wrapped body. -/
structure RImpl where
  trait_ : Trait
  traitPath : RPath
  whereClause : Option (List RPredicateType)
  body : Sig
  deriving DecidableEq

/-- The final output: the unmodified input item followed by the generated
implementation blocks. -/
structure ROutput where
  item : RDeriveInput
  impls : List RImpl
  deriving DecidableEq

/-- Turn one parsed `Generic` into the predicate pushed onto the `where`
clause for the trait currently being emitted: a custom bound is cloned
verbatim, a bare type is bound by the trait's own path. -/
def wherePredOfGeneric (trait_path : RPath) : Generic → RPredicateType
  | .coustomBound p => p
  | .noBound ty => ⟨ty, [trait_path]⟩

/-- The `for trait_ in derive_where.traits` loop of `derive_where_internal`:
for each trait, generate the body (propagating its error via `?`), look up
the trait path, and build this implementation's `where` clause from a fresh
clone of the input's clause. -/
def implLoop (generics : Option (List Generic)) (input : RDeriveInput) :
    List Trait → Option (Except Err (List RImpl))
  | [] => some (.ok [])
  | t :: rest =>
    match t.generate_body input.ident input.data with
    | none => none
    | some (.error e) => some (.error e)
    | some (.ok body) =>
      match t.path with
      | none => none
      | some trait_path =>
        let where_clause :=
          match generics with
          | none => input.whereClause
          | some gens =>
            some ((input.whereClause.getD []) ++ gens.map (wherePredOfGeneric trait_path))
        match implLoop generics input rest with
        | none => none
        | some (.error e) => some (.error e)
        | some (.ok impls) =>
          some (.ok (⟨t, trait_path, where_clause, body⟩ :: impls))

/-- `derive_where_internal` (`src/lib.rs`): parse the attribute, parse the
item (the item's `syn::parse2` outcome is supplied by the excluded parsing
collaborator, so it enters as an `Except`), then emit one implementation
per requested trait; the first error aborts the whole invocation. -/
def derive_where_internal (attr : List Tok) (item : Except Err RDeriveInput) :
    Option (Except Err ROutput) :=
  match DeriveWhere.parse attr with
  | .error e => some (.error e)
  | .ok dw =>
    match item with
    | .error e => some (.error e)
    | .ok input =>
      match implLoop dw.generics input dw.traits with
      | none => none
      | some (.error e) => some (.error e)
      | some (.ok impls) => some (.ok ⟨input, impls⟩)

/-! ## Well-formedness and method-body semantics -/

/-- The invariant `syn` guarantees for parsed items: every field of a
named-fields shape carries a name. -/
def RFields.wfB : RFields → Bool
  | .named f => f.named.all (fun fd => fd.ident.isSome)
  | .unnamed _ => true
  | .unit => true

/-- Item-level well-formedness: every named field anywhere carries a name. -/
def RData.wfB : RData → Bool
  | .structData fields => fields.wfB
  | .enumData variants => variants.all (fun v => v.fields.wfB)
  | .unionData => true

/-- One contribution the generated `hash` method feeds to the hasher. -/
inductive HashEvent where
  | discr
  | field (ident : String)
  deriving DecidableEq

/-- The hash contributions of one match arm: a `Hash` arm hashes its
temporaries in order, a unit `Hash` arm hashes nothing; arms of other
traits never appear in a `hash` method. -/
def hashArmEvents : GenArm → Option (List HashEvent)
  | .hashArm _ _ _ fieldsTemp => some (fieldsTemp.map HashEvent.field)
  | .hashUnitArm _ => some []
  | _ => none

/-- The hash contributions of one statement of the generated `hash` method
when `self` is the variant at `variantIdx`: the discriminant statement
contributes the discriminant, and the `match self` selects the arm of that
variant. -/
def hashStmtEvents (variantIdx : Nat) : HashStmt → Option (List HashEvent)
  | .hashDiscriminant _ => some [.discr]
  | .matchSelf arms =>
    match arms[variantIdx]? with
    | some arm => hashArmEvents arm
    | none => none

/-- Concatenate the contributions of a statement list, in order. -/
def collectEvents (variantIdx : Nat) : List HashStmt → Option (List HashEvent)
  | [] => some []
  | st :: rest =>
    match hashStmtEvents variantIdx st, collectEvents variantIdx rest with
    | some evs, some more => some (evs ++ more)
    | _, _ => none

/-- The ordered hash contributions of the generated `hash` method when
`self` is the variant at `variantIdx` (index 0 for a struct). -/
def hashEvents (s : Sig) (variantIdx : Nat) : Option (List HashEvent) :=
  match s with
  | .hashSig stmts => collectEvents variantIdx stmts
  | _ => none

/-- The value a selected `eq` match arm evaluates to. A braced or tuple
`PartialEq` arm is a block of `__cmp &= ...;` statements with no trailing
expression, so in Rust it evaluates to `()`, not to a `bool` — hence
`none`; a unit arm is the literal `true`. -/
def eqArmValue : GenArm → Option Bool
  | .partialEqArm _ _ _ _ _ => none
  | .partialEqUnitArm _ => some true
  | _ => none

/-- The boolean the generated `eq` method returns, or `none` when the
selected branch does not evaluate to a boolean. When the discriminants
differ the `else` branch returns `false`; when they agree, the `match
(self, __other)` selects the arm of `self`'s variant (index 0 for a
struct), and the method's result is that arm's value. -/
def eqMethodResult (s : Sig) (sameDiscriminant : Bool) (variantIdx : Nat) :
    Option Bool :=
  match s with
  | .partialEqSig arms =>
    if sameDiscriminant then
      match arms[variantIdx]? with
      | some arm => eqArmValue arm
      | none => none
    else some false
  | _ => none

/-! ## Helper notions for the theorems -/

/-- A layout attribute that triggers `Error::repr`: path `repr` but not in
parenthesized-list form. -/
def isNonListRepr (a : RAttr) : Bool :=
  if a.path = "repr" then
    match a.meta with
    | .notList => true
    | .list _ => false
  else false

/-- The first valid width inside one directive's identifier list (what the
inner loop of `Discriminant::parse` extracts from one attribute); `none`
for non-`repr` attributes and width-free lists. -/
def attrFirstWidth (a : RAttr) : Option Representation :=
  if a.path = "repr" then
    match a.meta with
    | .list idents => (idents.filterMap Representation.parse).head?
    | .notList => none
  else none

/-- The width the attribute scan actually resolves: each directive
containing a width overwrites the accumulator with that directive's first
width, so the last width-carrying directive wins. -/
def lastDirectiveWidth (attrs : List RAttr) (init : Option Representation) :
    Option Representation :=
  attrs.foldl
    (fun acc a =>
      match attrFirstWidth a with
      | some r => some r
      | none => acc)
    init

/-- The width the specification claims is used: the first valid width token
in directive declaration order, across all directives. -/
def firstDeclaredWidth (attrs : List RAttr) : Option Representation :=
  (((attrs.map (fun a =>
      if a.path = "repr" then
        match a.meta with
        | .list idents => idents
        | .notList => []
      else [])).flatten).filterMap Representation.parse).head?

/-- The field names of a named-fields shape (what the `expect` calls in
`build_for_struct` extract when every field carries a name). -/
def namedIdents (fn : RFieldsNamed) : List String :=
  fn.named.filterMap RField.ident

/-- The destructuring temporaries the generated `hash` arm hashes, in
declaration order, for each shape. -/
def hashTempsOf : RFields → List String
  | .named fn => (namedIdents fn).map (fun f => "__" ++ f)
  | .unnamed n => (List.range n).map (fun i => "__" ++ toString i)
  | .unit => []

/-- The single `Hash` arm generated for one enum variant. -/
def hashArmOfVariant (name : String) (v : RVariant) : GenArm :=
  match v.fields with
  | .named fn =>
    .hashArm (.variantPat name v.ident) ["", "core", "hash", "Hash"]
      (.named (namedIdents fn)) (hashTempsOf (.named fn))
  | .unnamed n =>
    .hashArm (.variantPat name v.ident) ["", "core", "hash", "Hash"]
      (.tuple n) (hashTempsOf (.unnamed n))
  | .unit => .hashUnitArm (.variantPat name v.ident)

/-- The `where` clause `derive_where_internal` attaches to one
implementation: with no generics section, the input's original clause; with
one, a fresh clone of the original clause (or an empty one) with one
predicate appended per entry, bound by the current trait's path. -/
def mkClause (generics : Option (List Generic)) (input : RDeriveInput)
    (trait_path : RPath) : Option (List RPredicateType) :=
  match generics with
  | none => input.whereClause
  | some gens =>
    some ((input.whereClause.getD []) ++ gens.map (wherePredOfGeneric trait_path))

/-! ### Lemmas about `Discriminant::parse` -/

theorem scanList_snd (idents : List String) (is_c : Bool) :
    (Discriminant.scanList idents is_c).2 =
      (idents.filterMap Representation.parse).head? := by
  induction idents generalizing is_c with
  | nil => rfl
  | cons ident rest ih =>
    by_cases hc : ident = "C"
    · subst hc
      simp only [Discriminant.scanList, if_pos rfl, List.filterMap_cons]
      have : Representation.parse "C" = none := rfl
      rw [this]
      exact ih true
    · simp only [Discriminant.scanList, if_neg hc, List.filterMap_cons]
      cases h : Representation.parse ident with
      | some r => simp
      | none => exact ih is_c

theorem attrLoop_error_iff (attrs : List RAttr) (is_c : Bool)
    (has_repr : Option Representation) :
    (∃ e, Discriminant.attrLoop attrs is_c has_repr = .error e) ↔
      attrs.any isNonListRepr = true := by
  induction attrs generalizing is_c has_repr with
  | nil =>
    simp only [Discriminant.attrLoop, List.any_nil]
    constructor
    · rintro ⟨e, h⟩; cases h
    · intro h; cases h
  | cons a rest ih =>
    simp only [Discriminant.attrLoop, List.any_cons, isNonListRepr]
    by_cases hp : a.path = "repr"
    · rw [if_pos hp, if_pos hp]
      cases hm : a.meta with
      | list idents =>
        simp only []
        rw [ih]
        simp
      | notList =>
        simp only []
        constructor
        · intro _; simp
        · intro _; exact ⟨.reprInvalid, rfl⟩
    · rw [if_neg hp, if_neg hp]
      rw [ih]
      simp

theorem attrLoop_ok_width (attrs : List RAttr) (is_c : Bool)
    (has_repr : Option Representation)
    (hgood : attrs.all (fun a => !isNonListRepr a) = true) :
    ∃ c', Discriminant.attrLoop attrs is_c has_repr =
      .ok (c', lastDirectiveWidth attrs has_repr) := by
  induction attrs generalizing is_c has_repr with
  | nil => exact ⟨is_c, rfl⟩
  | cons a rest ih =>
    simp only [List.all_cons, Bool.and_eq_true] at hgood
    simp only [Discriminant.attrLoop, lastDirectiveWidth, List.foldl_cons]
    by_cases hp : a.path = "repr"
    · rw [if_pos hp]
      cases hm : a.meta with
      | list idents =>
        simp only [attrFirstWidth, if_pos hp, hm, scanList_snd]
        exact ih _ _ hgood.2
      | notList =>
        exfalso
        have := hgood.1
        simp [isNonListRepr, hp, hm] at this
    · rw [if_neg hp]
      simp only [attrFirstWidth, if_neg hp]
      exact ih _ _ hgood.2

theorem attrLoop_error_val (attrs : List RAttr) (is_c : Bool)
    (has_repr : Option Representation) (e : Err)
    (h : Discriminant.attrLoop attrs is_c has_repr = .error e) :
    e = .reprInvalid := by
  induction attrs generalizing is_c has_repr with
  | nil => cases h
  | cons a rest ih =>
    simp only [Discriminant.attrLoop] at h
    by_cases hp : a.path = "repr"
    · rw [if_pos hp] at h
      cases hm : a.meta with
      | list idents => rw [hm] at h; exact ih _ _ h
      | notList => rw [hm] at h; cases h; rfl
    · rw [if_neg hp] at h; exact ih _ _ h

/-- C6: discriminant resolution. A single-variant enum yields `Single`
before directives are even validated; a parse error (the `InvalidDirective`
kind, `Err.reprInvalid`) occurs exactly when a multi-variant enum carries a
`repr` directive not in list form; and on success the result combines the
resolved width with unit-ness as the specification states: width present →
`UnitRepr`/`Repr` by unit-ness, otherwise `UnitDefault` exactly when all
variants are unit and no `C` flag was seen, else `Unknown`. -/
theorem c6_discriminant_resolution (attrs : List RAttr) (variants : List RVariant) :
    (variants.length = 1 → Discriminant.parse attrs variants = .ok .single) ∧
    ((∃ e, Discriminant.parse attrs variants = .error e) ↔
      (variants.length ≠ 1 ∧ attrs.any isNonListRepr = true)) ∧
    (∀ e, Discriminant.parse attrs variants = .error e → e = .reprInvalid) ∧
    (∀ is_c has_repr, variants.length ≠ 1 →
      Discriminant.attrLoop attrs false none = .ok (is_c, has_repr) →
      Discriminant.parse attrs variants =
        .ok (match has_repr with
          | some r =>
            if variants.all (fun v => v.fields.is_empty) then .unitRepr r
            else .reprWidth r
          | none =>
            if variants.all (fun v => v.fields.is_empty) && !is_c then .unitDefault
            else .unknown)) := by
  refine ⟨?_, ?_, ?_, ?_⟩
  · intro h
    simp [Discriminant.parse, h]
  · by_cases hlen : variants.length = 1
    · simp only [Discriminant.parse, if_pos hlen]
      constructor
      · rintro ⟨e, h⟩; cases h
      · rintro ⟨h, _⟩; exact absurd hlen h
    · simp only [Discriminant.parse, if_neg hlen]
      rw [← attrLoop_error_iff attrs false none]
      constructor
      · rintro ⟨e, h⟩
        refine ⟨hlen, e, ?_⟩
        cases hal : Discriminant.attrLoop attrs false none with
        | error e2 => cases (hal ▸ h); rfl
        | ok p => rw [hal] at h; cases h
      · rintro ⟨_, e, h⟩
        exact ⟨e, by rw [h]⟩
  · intro e h
    by_cases hlen : variants.length = 1
    · simp [Discriminant.parse, hlen] at h
    · simp only [Discriminant.parse, if_neg hlen] at h
      cases hal : Discriminant.attrLoop attrs false none with
      | error e2 =>
        rw [hal] at h
        cases h
        exact attrLoop_error_val attrs false none e hal
      | ok p => rw [hal] at h; cases h
  · intro is_c has_repr hlen hal
    simp [Discriminant.parse, if_neg hlen, hal]

/-- Witness for `c6_discriminant_resolution`: a single-variant enum with a
malformed `repr` directive still resolves to `Single`. -/
theorem c6_witness :
    Discriminant.parse [⟨"repr", .notList⟩] [⟨"A", .unit⟩] = .ok .single :=
  (c6_discriminant_resolution [⟨"repr", .notList⟩] [⟨"A", .unit⟩]).1 rfl

/-- C7 counterexample: the claim predicts that with the directive sequence
`#[repr(u8)] #[repr(u16)]` the resolved width is `u8` (first width in
declaration order), but the code resolves `u16`: the Rust `break` only
leaves the inner loop over one attribute's identifiers, so a later
directive's width overwrites an earlier one's. -/
theorem c7_counterexample_last_directive_wins :
    firstDeclaredWidth [⟨"repr", .list ["u8"]⟩, ⟨"repr", .list ["u16"]⟩] = some .u8 ∧
    Discriminant.parse [⟨"repr", .list ["u8"]⟩, ⟨"repr", .list ["u16"]⟩]
      [⟨"A", .unit⟩, ⟨"B", .unit⟩] = .ok (.unitRepr .u16) ∧
    Discriminant.unitRepr .u16 ≠ Discriminant.unitRepr .u8 :=
  ⟨rfl, rfl, by decide⟩

/-- C7 amended: within a single directive the first valid width wins, but
across several width-carrying directives each one overwrites the previous,
so the resolved width is the first width of the *last* directive that
contains one (`lastDirectiveWidth`). -/
theorem c7_last_directive_first_width (attrs : List RAttr)
    (variants : List RVariant) (hlen : variants.length ≠ 1)
    (hgood : attrs.all (fun a => !isNonListRepr a) = true)
    (r : Representation) (hw : lastDirectiveWidth attrs none = some r) :
    Discriminant.parse attrs variants =
      .ok (if variants.all (fun v => v.fields.is_empty) then .unitRepr r
           else .reprWidth r) := by
  obtain ⟨c', loop⟩ := attrLoop_ok_width attrs false none hgood
  rw [hw] at loop
  simp [Discriminant.parse, if_neg hlen, loop]

/-- Witness for `c7_last_directive_first_width` at the counterexample's
input. -/
theorem c7_witness :
    Discriminant.parse [⟨"repr", .list ["u8"]⟩, ⟨"repr", .list ["u16"]⟩]
      [⟨"A", .unit⟩, ⟨"B", .unit⟩] = .ok (.unitRepr .u16) := by
  have h := c7_last_directive_first_width
    [⟨"repr", .list ["u8"]⟩, ⟨"repr", .list ["u16"]⟩]
    [⟨"A", .unit⟩, ⟨"B", .unit⟩] (by decide) (by decide) .u16 rfl
  simpa using h

/-! ### Lemmas about `prepare_ord` -/

theorem selectOtherArm_enumFrom (item : String) (skip : SkipPat)
    (g : Nat → OrdLit) (i : Nat) :
    ∀ (vars : List String) (off j : Nat) (hj : j < vars.length),
      vars.Nodup → i ≠ off + j →
      selectOtherArm
        ((List.enumFrom off vars).filterMap (fun iv =>
          if i ≠ iv.1 then some ⟨item, iv.2, skip, g iv.1⟩ else none))
        vars[j] = some (g (off + j)) := by
  intro vars
  induction vars with
  | nil => intro off j hj; exact absurd hj (by simp)
  | cons v rest ih =>
    intro off j hj hnd hij
    rw [List.enumFrom_cons, List.filterMap_cons]
    rcases List.nodup_cons.mp hnd with ⟨hv, hrest⟩
    cases j with
    | zero =>
      have hio : i ≠ off := by simpa using hij
      rw [if_pos hio]
      simp [selectOtherArm, List.find?_cons]
    | succ k =>
      have hk : k < rest.length := by simpa using hj
      have htarget : (v :: rest)[k + 1] = rest[k] := by simp
      have hvne : v ≠ rest[k] := by
        intro h
        exact hv (h ▸ List.getElem_mem hk)
      have hrec :
          selectOtherArm
            ((List.enumFrom (off + 1) rest).filterMap (fun iv =>
              if i ≠ iv.1 then some ⟨item, iv.2, skip, g iv.1⟩ else none))
            rest[k] = some (g (off + 1 + k)) :=
        ih (off + 1) k hk hrest (by omega)
      have harith : off + 1 + k = off + (k + 1) := by omega
      rw [htarget]
      by_cases hio : i ≠ off
      · rw [if_pos hio]
        have hfind :
            (selectOtherArm
              (⟨item, v, skip, g off⟩ ::
                (List.enumFrom (off + 1) rest).filterMap (fun iv =>
                  if i ≠ iv.1 then some ⟨item, iv.2, skip, g iv.1⟩ else none))
              rest[k]) =
            selectOtherArm
              ((List.enumFrom (off + 1) rest).filterMap (fun iv =>
                if i ≠ iv.1 then some ⟨item, iv.2, skip, g iv.1⟩ else none))
              rest[k] := by
          simp only [selectOtherArm, List.find?_cons]
          have : (v == rest[k]) = false := beq_eq_false_iff_ne.mpr hvne
          simp [this]
        rw [hfind, hrec, harith]
      · rw [if_neg hio]
        rw [hrec, harith]

theorem prepare_ord_eq (t : Trait) (path : RPath) (wrap : Ordering → OrdLit)
    (hp : t.path = some path) (hw : t.ordWrap = some wrap)
    (item : String) (fts fos : List String)
    (variants : Option (Nat × List String)) (skip : SkipPat) :
    t.prepare_ord item fts fos variants skip =
      some ((fts.zip fos).foldr
          (fun fp acc => OrdBody.matchCmp path fp.1 fp.2 (wrap .eq) acc)
          (OrdBody.lit (wrap .eq)),
        match variants with
        | none => []
        | some vv =>
          (List.enumFrom 0 vv.2).filterMap (fun iv =>
            if vv.1 ≠ iv.1 then
              some ⟨item, iv.2, skip,
                match compare vv.1 iv.1 with
                | .lt => wrap .lt
                | .eq => wrap .eq
                | .gt => wrap .gt⟩
            else none)) := by
  unfold Trait.prepare_ord
  rw [hp, hw]
  simp only []
  refine congrArg some (Prod.ext ?_ ?_)
  · exact List.foldl_reverse _ _ _
  · cases variants with
    | none => rfl
    | some vv => cases vv; rfl

/-- C1: for `Ord` and `PartialOrd`, the cross-variant arm that compares a
value of variant index `i` against variant index `j ≠ i` yields the fixed
literal `Less` when `i < j` and `Greater` when `i > j` (wrapped in `Some`
for `PartialOrd`), for arbitrary field temporaries — the arm's result is a
literal chosen from the indices alone, so field contents cannot influence
it. -/
theorem c1_cross_variant_arms_fixed_by_index
    (t : Trait) (ht : t = .Ord ∨ t = .PartialOrd)
    (item : String) (vars : List String) (hnd : vars.Nodup)
    (i j : Nat) (hj : j < vars.length) (hij : i ≠ j)
    (fts fos : List String) (skip : SkipPat) :
    ∃ wrap body arms,
      t.ordWrap = some wrap ∧
      t.prepare_ord item fts fos (some (i, vars)) skip = some (body, arms) ∧
      selectOtherArm arms vars[j] = some (wrap (compare i j)) ∧
      (i < j → wrap (compare i j) = wrap .lt) ∧
      (j < i → wrap (compare i j) = wrap .gt) := by
  have main : ∀ wrap : Ordering → OrdLit,
      selectOtherArm
        ((List.enumFrom 0 vars).filterMap (fun iv =>
          if i ≠ iv.1 then
            some ⟨item, iv.2, skip,
              match compare i iv.1 with
              | .lt => wrap .lt
              | .eq => wrap .eq
              | .gt => wrap .gt⟩
          else none))
        vars[j] = some (wrap (compare i j)) := by
    intro wrap
    have := selectOtherArm_enumFrom item skip
      (fun idx =>
        match compare i idx with
        | .lt => wrap .lt
        | .eq => wrap .eq
        | .gt => wrap .gt)
      i vars 0 j hj hnd (by simpa using hij)
    rw [Nat.zero_add] at this
    rw [this]
    cases hc : compare i j <;> simp [hc]
  rcases ht with h | h <;> subst h
  · refine ⟨OrdLit.bare, _, _, rfl,
      prepare_ord_eq .Ord ["", "core", "cmp", "Ord"] OrdLit.bare rfl rfl
        item fts fos (some (i, vars)) skip,
      main OrdLit.bare, ?_, ?_⟩
    · intro hlt; rw [Nat.compare_eq_lt.mpr hlt]
    · intro hgt; rw [Nat.compare_eq_gt.mpr hgt]
  · refine ⟨OrdLit.wrapped, _, _, rfl,
      prepare_ord_eq .PartialOrd ["", "core", "cmp", "PartialOrd"] OrdLit.wrapped rfl rfl
        item fts fos (some (i, vars)) skip,
      main OrdLit.wrapped, ?_, ?_⟩
    · intro hlt; rw [Nat.compare_eq_lt.mpr hlt]
    · intro hgt; rw [Nat.compare_eq_gt.mpr hgt]

/-- Witness for `c1_cross_variant_arms_fixed_by_index`: in a three-variant
enum, comparing variant 1 against variant 2 (with a nonempty field list)
yields the fixed `Less` literal. -/
theorem c1_witness :
    ∃ wrap body arms,
      Trait.ordWrap .Ord = some wrap ∧
      Trait.Ord.prepare_ord "Test" ["__a"] ["__other_a"]
        (some (1, ["A", "B", "C"])) .braces = some (body, arms) ∧
      selectOtherArm arms "C" = some (wrap (compare 1 2)) ∧
      (1 < 2 → wrap (compare 1 2) = wrap .lt) ∧
      (2 < 1 → wrap (compare 1 2) = wrap .gt) :=
  c1_cross_variant_arms_fixed_by_index .Ord (Or.inl rfl) "Test"
    ["A", "B", "C"] (by decide) 1 2 (by decide) (by decide)
    ["__a"] ["__other_a"] .braces

theorem evalOrdBody_foldr (wrap : Ordering → OrdLit)
    (hw : wrap = OrdLit.bare ∨ wrap = OrdLit.wrapped) (path : RPath)
    (oracle : String → String → Ordering) (zl : List (String × String)) :
    evalOrdBody oracle
      (zl.foldr (fun fp acc => OrdBody.matchCmp path fp.1 fp.2 (wrap .eq) acc)
        (OrdBody.lit (wrap .eq))) =
      wrap (lexOrd (zl.map (fun fp => oracle fp.1 fp.2))) := by
  induction zl with
  | nil => rcases hw with h | h <;> subst h <;> rfl
  | cons fp zl ih =>
    rcases hw with h | h <;> subst h <;>
      cases hov : oracle fp.1 fp.2 <;>
        simp_all [evalOrdBody, lexOrd]

/-- C2: for `Ord` and `PartialOrd`, the same-variant comparison body is the
right fold over the zipped field lists that starts from the `equal` literal
and defers to the accumulated rest exactly when the current field compares
equal; `PartialOrd` renders every `Ordering` literal wrapped in
`Option::Some` while `Ord` uses the bare literals; and evaluating the body
yields the first-field-major lexicographic combination of the field
comparisons. -/
theorem c2_ord_body_right_fold (t : Trait) (ht : t = .Ord ∨ t = .PartialOrd)
    (item : String) (fts fos : List String)
    (variants : Option (Nat × List String)) (skip : SkipPat) :
    ∃ path wrap body arms,
      t.path = some path ∧
      t.ordWrap = some wrap ∧
      t.prepare_ord item fts fos variants skip = some (body, arms) ∧
      body = (fts.zip fos).foldr
        (fun fp acc => OrdBody.matchCmp path fp.1 fp.2 (wrap .eq) acc)
        (OrdBody.lit (wrap .eq)) ∧
      (t = .PartialOrd → wrap = OrdLit.wrapped) ∧
      (t = .Ord → wrap = OrdLit.bare) ∧
      (∀ oracle, evalOrdBody oracle body =
        wrap (lexOrd ((fts.zip fos).map (fun fp => oracle fp.1 fp.2)))) := by
  rcases ht with h | h <;> subst h
  · refine ⟨["", "core", "cmp", "Ord"], OrdLit.bare, _, _, rfl, rfl,
      prepare_ord_eq .Ord ["", "core", "cmp", "Ord"] OrdLit.bare rfl rfl
        item fts fos variants skip, rfl, ?_, ?_, ?_⟩
    · intro h; cases h
    · intro _; rfl
    · intro oracle
      exact evalOrdBody_foldr OrdLit.bare (Or.inl rfl) _ oracle _
  · refine ⟨["", "core", "cmp", "PartialOrd"], OrdLit.wrapped, _, _, rfl, rfl,
      prepare_ord_eq .PartialOrd ["", "core", "cmp", "PartialOrd"] OrdLit.wrapped rfl rfl
        item fts fos variants skip, rfl, ?_, ?_, ?_⟩
    · intro _; rfl
    · intro h; cases h
    · intro oracle
      exact evalOrdBody_foldr OrdLit.wrapped (Or.inr rfl) _ oracle _

/-- Witness for `c2_ord_body_right_fold` at a concrete two-field
`PartialOrd` instance. -/
theorem c2_witness :
    ∃ path wrap body arms,
      Trait.path .PartialOrd = some path ∧
      Trait.ordWrap .PartialOrd = some wrap ∧
      Trait.PartialOrd.prepare_ord "Test" ["__a", "__b"] ["__other_a", "__other_b"]
        none .braces = some (body, arms) ∧
      body = ((["__a", "__b"].zip ["__other_a", "__other_b"]).foldr
        (fun fp acc => OrdBody.matchCmp path fp.1 fp.2 (wrap .eq) acc)
        (OrdBody.lit (wrap .eq))) ∧
      (Trait.PartialOrd = Trait.PartialOrd → wrap = OrdLit.wrapped) ∧
      (Trait.PartialOrd = Trait.Ord → wrap = OrdLit.bare) ∧
      (∀ oracle, evalOrdBody oracle body =
        wrap (lexOrd (((["__a", "__b"].zip ["__other_a", "__other_b"]).map
          (fun fp => oracle fp.1 fp.2))))) :=
  c2_ord_body_right_fold .PartialOrd (Or.inr rfl) "Test"
    ["__a", "__b"] ["__other_a", "__other_b"] none .braces

/-! ### Lemmas about the generated `hash` method -/

theorem mapM_eq_filterMap {α β : Type} (f : α → Option β) (l : List α)
    (h : ∀ x ∈ l, (f x).isSome = true) :
    l.mapM f = some (l.filterMap f) := by
  induction l with
  | nil => rfl
  | cons a l ih =>
    rw [List.mapM_cons]
    obtain ⟨b, hb⟩ := Option.isSome_iff_exists.mp (h a (by simp))
    rw [hb, ih (fun x hx => h x (by simp [hx]))]
    simp [List.filterMap_cons, hb]

theorem mapM_enumFrom_singleton {β : Type} (g : RVariant → β)
    (f : Nat × RVariant → Option (List β)) (vl : List RVariant)
    (h : ∀ n v, v ∈ vl → f (n, v) = some [g v]) :
    ∀ off, (List.enumFrom off vl).mapM f = some (vl.map (fun v => [g v])) := by
  induction vl with
  | nil => intro off; rfl
  | cons v vl ih =>
    intro off
    rw [List.enumFrom_cons, List.mapM_cons, h off v (by simp),
      ih (fun n w hw => h n w (by simp [hw])) (off + 1)]
    simp

theorem flatten_map_singleton {α β : Type} (g : α → β) (l : List α) :
    (l.map (fun x => [g x])).flatten = l.map g := by
  induction l <;> simp_all

theorem build_for_struct_hash (dbg item : String) (pattern : RPat)
    (variants : Option (Nat × List String)) (fn : RFieldsNamed)
    (h : (fn.named.all fun fd => fd.ident.isSome) = true) :
    Trait.Hash.build_for_struct dbg item pattern variants fn =
      some [.hashArm pattern ["", "core", "hash", "Hash"]
        (.named (namedIdents fn)) (hashTempsOf (.named fn))] := by
  unfold Trait.build_for_struct
  rw [show Trait.path .Hash = some ["", "core", "hash", "Hash"] from rfl]
  rw [mapM_eq_filterMap RField.ident fn.named (by
    intro x hx
    exact List.all_eq_true.mp h x hx)]
  rfl

theorem build_for_tuple_hash (dbg item : String) (pattern : RPat)
    (variants : Option (Nat × List String)) (n : Nat) :
    Trait.Hash.build_for_tuple dbg item pattern variants n =
      some [.hashArm pattern ["", "core", "hash", "Hash"]
        (.tuple n) (hashTempsOf (.unnamed n))] := rfl

theorem build_for_unit_hash (dbg item : String) (pattern : RPat)
    (variants : Option (Nat × List String)) :
    Trait.Hash.build_for_unit dbg item pattern variants =
      some [.hashUnitArm pattern] := rfl

theorem build_signature_hash (arms : List GenArm) :
    Trait.Hash.build_signature arms =
      some (.hashSig [.hashDiscriminant ["", "core", "hash", "Hash"],
        .matchSelf arms]) := rfl

theorem hashEvents_hashSig (path : RPath) (arms : List GenArm) (idx : Nat)
    (arm : GenArm) (harm : arms[idx]? = some arm) (evs : List HashEvent)
    (hevs : hashArmEvents arm = some evs) :
    hashEvents (.hashSig [.hashDiscriminant path, .matchSelf arms]) idx =
      some (.discr :: evs) := by
  simp [hashEvents, collectEvents, hashStmtEvents, harm, hevs]

/-- C3 counterexample: the claim says the discriminant contribution is
skipped for non-enum shapes, but for the struct `Test { a }` the generated
`hash` method still feeds the discriminant to the hasher first. -/
theorem c3_counterexample_struct_discriminant_hashed :
    ∃ s, Trait.Hash.generate_body "Test" (.structData (.named ⟨[⟨some "a"⟩]⟩)) =
        some (.ok s) ∧
      hashEvents s 0 = some [.discr, .field "__a"] ∧
      some [HashEvent.discr, HashEvent.field "__a"] ≠
        some [HashEvent.field "__a"] :=
  ⟨_, rfl, rfl, by decide⟩

/-- C3 amended: for every shape — struct with named fields, tuple struct,
or enum (not only enums, as the claim stated) — the generated `hash` method
hashes the discriminant of `self` first, before any field, and then hashes
every field of the matched variant in declaration order. -/
theorem c3_hash_discriminant_first_all_shapes (name : String) :
    (∀ fn : RFieldsNamed, (fn.named.all fun fd => fd.ident.isSome) = true →
      ∃ s, Trait.Hash.generate_body name (.structData (.named fn)) = some (.ok s) ∧
        hashEvents s 0 =
          some (.discr :: (hashTempsOf (.named fn)).map HashEvent.field)) ∧
    (∀ n : Nat,
      ∃ s, Trait.Hash.generate_body name (.structData (.unnamed n)) = some (.ok s) ∧
        hashEvents s 0 =
          some (.discr :: (hashTempsOf (.unnamed n)).map HashEvent.field)) ∧
    (∀ (variants : List RVariant) (idx : Nat) (hidx : idx < variants.length),
      (variants.all fun v => v.fields.wfB) = true →
      ∃ s, Trait.Hash.generate_body name (.enumData variants) = some (.ok s) ∧
        hashEvents s idx =
          some (.discr :: (hashTempsOf variants[idx].fields).map HashEvent.field)) := by
  refine ⟨?_, ?_, ?_⟩
  · intro fn h
    refine ⟨.hashSig [.hashDiscriminant ["", "core", "hash", "Hash"],
      .matchSelf [.hashArm (.structPat name) ["", "core", "hash", "Hash"]
        (.named (namedIdents fn)) (hashTempsOf (.named fn))]], ?_, ?_⟩
    · simp only [Trait.generate_body,
        build_for_struct_hash name name (RPat.structPat name) none fn h]
      rfl
    · refine hashEvents_hashSig _ _ 0 _ rfl _ ?_
      simp [hashArmEvents]
  · intro n
    refine ⟨.hashSig [.hashDiscriminant ["", "core", "hash", "Hash"],
      .matchSelf [.hashArm (.structPat name) ["", "core", "hash", "Hash"]
        (.tuple n) (hashTempsOf (.unnamed n))]], ?_, ?_⟩
    · simp only [Trait.generate_body,
        build_for_tuple_hash name name (RPat.structPat name) none n]
      rfl
    · refine hashEvents_hashSig _ _ 0 _ rfl _ ?_
      simp [hashArmEvents]
  · intro variants idx hidx hwf
    refine ⟨.hashSig [.hashDiscriminant ["", "core", "hash", "Hash"],
      .matchSelf (variants.map (hashArmOfVariant name))], ?_, ?_⟩
    · have harms :
          (List.enumFrom 0 variants).mapM (fun (iv : Nat × RVariant) =>
            match iv.2.fields with
            | RFields.named f =>
              Trait.Hash.build_for_struct iv.2.ident name
                (RPat.variantPat name iv.2.ident)
                (some (iv.1, variants.map RVariant.ident)) f
            | RFields.unnamed n =>
              Trait.Hash.build_for_tuple iv.2.ident name
                (RPat.variantPat name iv.2.ident)
                (some (iv.1, variants.map RVariant.ident)) n
            | RFields.unit =>
              Trait.Hash.build_for_unit iv.2.ident name
                (RPat.variantPat name iv.2.ident)
                (some (iv.1, variants.map RVariant.ident))) =
          some (variants.map (fun v => [hashArmOfVariant name v])) := by
        refine mapM_enumFrom_singleton (hashArmOfVariant name) _ variants ?_ 0
        intro n v hv
        have hvwf := List.all_eq_true.mp hwf v hv
        cases hfv : v.fields with
        | named fn =>
          simp only [hfv]
          rw [build_for_struct_hash v.ident name (RPat.variantPat name v.ident)
            (some (n, variants.map RVariant.ident)) fn
            (by rw [hfv] at hvwf; simpa [RFields.wfB] using hvwf)]
          simp [hashArmOfVariant, hfv]
        | unnamed m =>
          simp only [hfv]
          rw [build_for_tuple_hash v.ident name (RPat.variantPat name v.ident)
            (some (n, variants.map RVariant.ident)) m]
          simp [hashArmOfVariant, hfv]
        | unit =>
          simp only [hfv]
          rw [build_for_unit_hash v.ident name (RPat.variantPat name v.ident)
            (some (n, variants.map RVariant.ident))]
          simp [hashArmOfVariant, hfv]
      simp only [Trait.generate_body]
      rw [show variants.enum = List.enumFrom 0 variants from rfl, harms]
      simp only [Option.map_some', flatten_map_singleton]
      rfl
    · refine hashEvents_hashSig _ _ idx (hashArmOfVariant name variants[idx]) ?_
        ((hashTempsOf variants[idx].fields).map HashEvent.field) ?_
      · rw [List.getElem?_map, List.getElem?_eq_getElem hidx]
        rfl
      · cases hfv : variants[idx].fields <;>
          simp [hashArmOfVariant, hashArmEvents, hashTempsOf, hfv]

/-- Witness for `c3_hash_discriminant_first_all_shapes` on a two-variant
enum whose second variant has a named field. -/
theorem c3_witness :
    ∃ s, Trait.Hash.generate_body "Test"
        (.enumData [⟨"A", .unit⟩, ⟨"B", .named ⟨[⟨some "a"⟩]⟩⟩]) = some (.ok s) ∧
      hashEvents s 1 =
        some (.discr ::
          (hashTempsOf ([(⟨"A", .unit⟩ : RVariant),
            ⟨"B", .named ⟨[⟨some "a"⟩]⟩⟩][1]).fields).map HashEvent.field) :=
  (c3_hash_discriminant_first_all_shapes "Test").2.2
    [⟨"A", .unit⟩, ⟨"B", .named ⟨[⟨some "a"⟩]⟩⟩] 1 (by decide) (by decide)

/-- C4, evaluated at the failing input `struct Test { a }` with
`PartialEq`: the generated `eq` arm for the (only) matching-variant pair is
a statement block that updates `__cmp` but produces no value, so on two
same-variant values the method body never returns the accumulated boolean
(`eqMethodResult ... true 0 = none` — in Rust the selected branch has type
`()`, not `bool`); only the cross-variant `else` branch produces a boolean
(`false`). The claim's "reduces to a single boolean which the method
returns" therefore fails on the code, whose `let mut __cmp = true;` is
dead: the accumulator is never read back. -/
theorem c4_eq_method_drops_accumulator :
    Trait.PartialEq.generate_body "Test" (.structData (.named ⟨[⟨some "a"⟩]⟩)) =
      some (.ok (.partialEqSig [.partialEqArm (.structPat "Test")
        ["", "core", "cmp", "PartialEq"] (.named ["a"]) ["__a"] ["__other_a"]])) ∧
    eqMethodResult (.partialEqSig [.partialEqArm (.structPat "Test")
      ["", "core", "cmp", "PartialEq"] (.named ["a"]) ["__a"] ["__other_a"]])
      true 0 = none ∧
    eqMethodResult (.partialEqSig [.partialEqArm (.structPat "Test")
      ["", "core", "cmp", "PartialEq"] (.named ["a"]) ["__a"] ["__other_a"]])
      false 0 = some false :=
  ⟨rfl, rfl, rfl⟩

/-! ### Lemmas about the attribute grammar -/

/-- A successful terminated trait-list parse consumes only identifiers and
commas, so its input can never contain the `;` delimiter. -/
theorem parseTraits_ok_no_semi : ∀ (toks : List Tok) (ts : List Trait),
    parseTraitsTerminated toks = .ok ts → Tok.semi ∉ toks
  | [], _, _ => by simp
  | .ident s :: rest, ts, h => by
    simp only [parseTraitsTerminated] at h
    split at h
    · cases h
    · split at h
      · simp
      · rename_i rest2
        split at h
        · rename_i ts2 hr
          have hrec := parseTraits_ok_no_semi rest2 ts2 hr
          simp [hrec]
        · cases h
      · cases h
  | .comma :: rest, ts, h => by cases h
  | .semi :: rest, ts, h => by cases h
  | .colon :: rest, ts, h => by cases h
  | .other :: rest, ts, h => by cases h

/-- C5: the attribute parser first attempts a full capability-list parse
(whose success means the whole input was consumed, since the terminated
parser stops only at end of stream) and in that case reports no constraint
section; when that attempt fails it re-parses as a nonempty bound list, a
required `;`, then a capability list; and a well-formed bound-list input
`bounds ; capabilities` can never satisfy the first attempt, because a
successful capability-list parse admits no `;` token anywhere in its
input. -/
theorem c5_parser_disambiguation :
    (∀ (toks : List Tok) (traits : List Trait),
      parseTraitsTerminated toks = .ok traits →
      DeriveWhere.parse toks = .ok ⟨none, traits⟩) ∧
    (∀ (toks : List Tok) (dw : DeriveWhere),
      DeriveWhere.parse toks = .ok dw → dw.generics = none →
      parseTraitsTerminated toks = .ok dw.traits) ∧
    (∀ (toks : List Tok) (e : Err),
      parseTraitsTerminated toks = .error e →
      DeriveWhere.parse toks =
        (match parseGenericsAux (toks.length + 1) toks with
         | .error e2 => .error e2
         | .ok (gens, rest) =>
           match rest with
           | .semi :: rest2 =>
             match parseTraitsTerminated rest2 with
             | .ok traits => .ok ⟨some gens, traits⟩
             | .error e2 => .error e2
           | _ => .error .syntaxError)) ∧
    (∀ (gtoks ctoks : List Tok) (traits : List Trait),
      parseTraitsTerminated (gtoks ++ Tok.semi :: ctoks) ≠ .ok traits) := by
  refine ⟨?_, ?_, ?_, ?_⟩
  · intro toks traits h
    simp [DeriveWhere.parse, h]
  · intro toks dw h hg
    unfold DeriveWhere.parse at h
    split at h
    · rename_i traits htl
      cases h
      exact htl
    · split at h
      · cases h
      · split at h
        · split at h
          · cases h
            cases hg
          · cases h
        · cases h
  · intro toks e h
    simp [DeriveWhere.parse, h]
  · intro gtoks ctoks traits h
    have := parseTraits_ok_no_semi _ _ h
    exact this (by simp)

/-- Witness for `c5_parser_disambiguation`: a plain trait list parses with
no constraints, and a bound-form input fails the first attempt. -/
theorem c5_witness :
    DeriveWhere.parse [.ident "Clone", .comma, .ident "Debug"] =
      .ok ⟨none, [.Clone, .Debug]⟩ ∧
    parseTraitsTerminated [.ident "T", .semi, .ident "Clone"] ≠
      .ok [.Clone] :=
  ⟨c5_parser_disambiguation.1 [.ident "Clone", .comma, .ident "Debug"]
      [.Clone, .Debug] rfl,
    c5_parser_disambiguation.2.2.2 [.ident "T"] [.ident "Clone"] [.Clone]⟩

/-! ### Lemmas about the orchestrator loop -/

theorem trait_path_some (t : Trait) : ∃ p, Trait.path t = some p := by
  cases t <;> exact ⟨_, rfl⟩

theorem implLoop_ok (generics : Option (List Generic)) (input : RDeriveInput) :
    ∀ (ts : List Trait) (impls : List RImpl),
      implLoop generics input ts = some (.ok impls) →
      impls.length = ts.length ∧
      impls.map RImpl.trait_ = ts ∧
      ∀ k (hk : k < ts.length), ∃ body path,
        (ts[k]).generate_body input.ident input.data = some (.ok body) ∧
        Trait.path ts[k] = some path ∧
        impls[k]? = some ⟨ts[k], path, mkClause generics input path, body⟩ := by
  intro ts
  induction ts with
  | nil =>
    intro impls h
    simp only [implLoop] at h
    cases h
    refine ⟨rfl, rfl, ?_⟩
    intro k hk
    exact absurd hk (by simp)
  | cons t rest ih =>
    intro impls h
    simp only [implLoop] at h
    split at h
    · cases h
    · cases h
    · rename_i body hbody
      split at h
      · cases h
      · rename_i path hpath
        split at h
        · cases h
        · cases h
        · rename_i impls' hrest
          cases h
          obtain ⟨hlen, hmap, hk⟩ := ih impls' hrest
          refine ⟨by simp [hlen], by simp [hmap], ?_⟩
          intro k hk2
          cases k with
          | zero =>
            refine ⟨body, path, by simpa using hbody, by simpa using hpath, ?_⟩
            simp [mkClause]
          | succ k2 =>
            have hk3 : k2 < rest.length := by simpa using hk2
            obtain ⟨b, p, h1, h2, h3⟩ := hk k2 hk3
            refine ⟨b, p, by simpa using h1, by simpa using h2, by simpa using h3⟩

theorem implLoop_first_error (generics : Option (List Generic))
    (input : RDeriveInput) :
    ∀ (pre : List Trait) (t : Trait) (post : List Trait) (e : Err),
      (∀ p ∈ pre, ∃ b, p.generate_body input.ident input.data = some (.ok b)) →
      t.generate_body input.ident input.data = some (.error e) →
      implLoop generics input (pre ++ t :: post) = some (.error e) := by
  intro pre
  induction pre with
  | nil =>
    intro t post e _ ht
    simp only [List.nil_append, implLoop, ht]
  | cons p pre ih =>
    intro t post e hpre ht
    obtain ⟨b, hb⟩ := hpre p (by simp)
    obtain ⟨path, hpath⟩ := trait_path_some p
    have hrest := ih t post e (fun q hq => hpre q (by simp [hq])) ht
    show implLoop generics input (p :: (pre ++ t :: post)) = some (.error e)
    simp only [implLoop, hb, hpath, hrest]

/-- C8: on a successful run, the `where` clause attached to the `k`-th
generated implementation is: the input's original clause, byte-for-byte,
when the request had no generic-constraint section — the same for every
capability; and otherwise a fresh clone of the original clause with one
predicate appended per entry (the user's clause verbatim for custom bounds,
`type : current-trait-path` for bare types). Every clause is built from
`input.whereClause` itself, so no capability's bounds can leak into
another's. -/
theorem c8_where_clause_per_capability
    (attr : List Tok) (input : RDeriveInput) (dw : DeriveWhere) (out : ROutput)
    (hdw : DeriveWhere.parse attr = .ok dw)
    (hout : derive_where_internal attr (.ok input) = some (.ok out)) :
    out.impls.length = dw.traits.length ∧
    ∀ k (hk : k < dw.traits.length) (impl : RImpl), out.impls[k]? = some impl →
      (dw.generics = none → impl.whereClause = input.whereClause) ∧
      (∀ gens, dw.generics = some gens →
        impl.whereClause =
          some ((input.whereClause.getD []) ++
            gens.map (wherePredOfGeneric impl.traitPath))) := by
  unfold derive_where_internal at hout
  rw [hdw] at hout
  have hout2 : ((match implLoop dw.generics input dw.traits with
      | none => none
      | some (.error e) => some (.error e)
      | some (.ok impls) =>
        some (.ok ({ item := input, impls := impls } : ROutput))) :
      Option (Except Err ROutput)) = some (.ok out) := hout
  clear hout
  split at hout2
  · cases hout2
  · cases hout2
  · rename_i impls hloop
    cases hout2
    obtain ⟨hlen, _, hk⟩ := implLoop_ok dw.generics input dw.traits impls hloop
    refine ⟨hlen, ?_⟩
    intro k hk2 impl himpl
    obtain ⟨body, path, _, _, h3⟩ := hk k hk2
    rw [himpl] at h3
    cases h3
    constructor
    · intro hg
      simp [mkClause, hg]
    · intro gens hg
      simp [mkClause, hg]

/-- Witness for `c8_where_clause_per_capability`: `T; Clone` on a
single-field tuple struct yields one implementation whose clause is
`T: ::core::clone::Clone`. -/
theorem c8_witness :
    (⟨⟨"Test", none, .structData (.unnamed 1)⟩,
      [⟨.Clone, ["", "core", "clone", "Clone"],
        some [⟨"T", [["", "core", "clone", "Clone"]]⟩],
        .cloneSig [.cloneArm (.structPat "Test") ["", "core", "clone", "Clone"]
          (.tuple 1) ["__0"]]⟩]⟩ : ROutput).impls.length =
      (⟨some [.noBound "T"], [.Clone]⟩ : DeriveWhere).traits.length ∧
    ∀ k (hk : k < (⟨some [.noBound "T"], [.Clone]⟩ : DeriveWhere).traits.length)
        (impl : RImpl),
      (⟨⟨"Test", none, .structData (.unnamed 1)⟩,
        [⟨.Clone, ["", "core", "clone", "Clone"],
          some [⟨"T", [["", "core", "clone", "Clone"]]⟩],
          .cloneSig [.cloneArm (.structPat "Test") ["", "core", "clone", "Clone"]
            (.tuple 1) ["__0"]]⟩]⟩ : ROutput).impls[k]? = some impl →
      ((⟨some [.noBound "T"], [.Clone]⟩ : DeriveWhere).generics = none →
        impl.whereClause =
          (⟨"Test", none, .structData (.unnamed 1)⟩ : RDeriveInput).whereClause) ∧
      (∀ gens, (⟨some [.noBound "T"], [.Clone]⟩ : DeriveWhere).generics = some gens →
        impl.whereClause =
          some (((⟨"Test", none, .structData (.unnamed 1)⟩ : RDeriveInput).whereClause.getD []) ++
            gens.map (wherePredOfGeneric impl.traitPath))) :=
  c8_where_clause_per_capability [.ident "T", .semi, .ident "Clone"]
    ⟨"Test", none, .structData (.unnamed 1)⟩
    ⟨some [.noBound "T"], [.Clone]⟩ _ rfl rfl

/-- C9: on success the orchestrator returns the unmodified original item
followed by exactly one implementation per requested capability, in request
order; and when some capability's body generation fails, with every
capability before it succeeding, the orchestrator returns that first error
itself — the remaining capabilities are never attempted and no partial
output is produced (the result carries no implementation blocks). -/
theorem c9_orchestrator_output_or_first_error
    (attr : List Tok) (input : RDeriveInput) (dw : DeriveWhere)
    (hdw : DeriveWhere.parse attr = .ok dw) :
    (∀ out, derive_where_internal attr (.ok input) = some (.ok out) →
      out.item = input ∧ out.impls.map RImpl.trait_ = dw.traits) ∧
    (∀ (pre : List Trait) (t : Trait) (post : List Trait) (e : Err),
      dw.traits = pre ++ t :: post →
      (∀ p ∈ pre, ∃ b, p.generate_body input.ident input.data = some (.ok b)) →
      t.generate_body input.ident input.data = some (.error e) →
      derive_where_internal attr (.ok input) = some (.error e)) := by
  constructor
  · intro out hout
    unfold derive_where_internal at hout
    rw [hdw] at hout
    have hout2 : ((match implLoop dw.generics input dw.traits with
        | none => none
        | some (.error e) => some (.error e)
        | some (.ok impls) =>
          some (.ok ({ item := input, impls := impls } : ROutput))) :
        Option (Except Err ROutput)) = some (.ok out) := hout
    clear hout
    split at hout2
    · cases hout2
    · cases hout2
    · rename_i impls hloop
      cases hout2
      obtain ⟨_, hmap, _⟩ := implLoop_ok dw.generics input dw.traits impls hloop
      exact ⟨rfl, hmap⟩
  · intro pre t post e hsplit hpre ht
    have hloop := implLoop_first_error dw.generics input pre t post e hpre ht
    rw [← hsplit] at hloop
    unfold derive_where_internal
    rw [hdw]
    show ((match implLoop dw.generics input dw.traits with
        | none => none
        | some (.error e) => some (.error e)
        | some (.ok impls) =>
          some (.ok ({ item := input, impls := impls } : ROutput))) :
        Option (Except Err ROutput)) = some (.error e)
    rw [hloop]

/-- Witness for `c9_orchestrator_output_or_first_error`: deriving
`Clone, Debug` for a union fails immediately with the union error on the
first capability — no implementation blocks are produced. -/
theorem c9_witness :
    derive_where_internal [.ident "Clone", .comma, .ident "Debug"]
      (.ok ⟨"Test", none, .unionData⟩) = some (.error .unionUnsupported) :=
  (c9_orchestrator_output_or_first_error
    [.ident "Clone", .comma, .ident "Debug"]
    ⟨"Test", none, .unionData⟩ ⟨none, [.Clone, .Debug]⟩ rfl).2
    [] .Clone [.Debug] .unionUnsupported rfl
    (fun p hp => absurd hp (by simp)) rfl

/-! ### Totality of generation (no panic point is reachable) -/

theorem mapM_enumFrom_isSome {β : Type} (f : Nat × RVariant → Option β)
    (vl : List RVariant)
    (h : ∀ n v, v ∈ vl → (f (n, v)).isSome = true) :
    ∀ off, ((List.enumFrom off vl).mapM f).isSome = true := by
  induction vl with
  | nil => intro off; rfl
  | cons v vl ih =>
    intro off
    rw [List.enumFrom_cons, List.mapM_cons]
    obtain ⟨b, hb⟩ := Option.isSome_iff_exists.mp (h off v (by simp))
    rw [hb]
    obtain ⟨bs, hbs⟩ :=
      Option.isSome_iff_exists.mp (ih (fun n w hw => h n w (by simp [hw])) (off + 1))
    rw [hbs]
    simp

theorem build_for_struct_isSome (t : Trait) (dbg item : String) (pattern : RPat)
    (variants : Option (Nat × List String)) (fn : RFieldsNamed)
    (h : (fn.named.all fun fd => fd.ident.isSome) = true) :
    (t.build_for_struct dbg item pattern variants fn).isSome = true := by
  have hmapM := mapM_eq_filterMap RField.ident fn.named
    (fun x hx => List.all_eq_true.mp h x hx)
  cases t <;>
    · unfold Trait.build_for_struct
      rw [hmapM]
      rfl

theorem build_for_tuple_isSome (t : Trait) (dbg item : String) (pattern : RPat)
    (variants : Option (Nat × List String)) (n : Nat) :
    (t.build_for_tuple dbg item pattern variants n).isSome = true := by
  cases t <;> rfl

theorem build_for_unit_isSome (t : Trait) (dbg item : String) (pattern : RPat)
    (variants : Option (Nat × List String)) :
    (t.build_for_unit dbg item pattern variants).isSome = true := by
  cases t <;> rfl

theorem build_signature_isSome (t : Trait) (arms : List GenArm) :
    (t.build_signature arms).isSome = true := by
  cases t <;> rfl

theorem generate_body_isSome (t : Trait) (name : String) (data : RData)
    (h : data.wfB = true) :
    (t.generate_body name data).isSome = true := by
  cases data with
  | structData fields =>
    cases fields with
    | named fn =>
      have hfs := build_for_struct_isSome t name name (.structPat name) none fn
        (by simpa [RData.wfB, RFields.wfB] using h)
      obtain ⟨arms, harms⟩ := Option.isSome_iff_exists.mp hfs
      obtain ⟨sig, hsig⟩ :=
        Option.isSome_iff_exists.mp (build_signature_isSome t arms)
      unfold Trait.generate_body
      simp [harms, hsig]
    | unnamed n =>
      have hfs := build_for_tuple_isSome t name name (.structPat name) none n
      obtain ⟨arms, harms⟩ := Option.isSome_iff_exists.mp hfs
      obtain ⟨sig, hsig⟩ :=
        Option.isSome_iff_exists.mp (build_signature_isSome t arms)
      unfold Trait.generate_body
      simp [harms, hsig]
    | unit => rfl
  | enumData variants =>
    have hwf : ∀ v ∈ variants, v.fields.wfB = true := by
      intro v hv
      exact List.all_eq_true.mp (by simpa [RData.wfB] using h) v hv
    have harms := mapM_enumFrom_isSome
      (fun (iv : Nat × RVariant) =>
        match iv.2.fields with
        | RFields.named f =>
          t.build_for_struct iv.2.ident name (RPat.variantPat name iv.2.ident)
            (some (iv.1, variants.map RVariant.ident)) f
        | RFields.unnamed m =>
          t.build_for_tuple iv.2.ident name (RPat.variantPat name iv.2.ident)
            (some (iv.1, variants.map RVariant.ident)) m
        | RFields.unit =>
          t.build_for_unit iv.2.ident name (RPat.variantPat name iv.2.ident)
            (some (iv.1, variants.map RVariant.ident)))
      variants
      (by
        intro n v hv
        have hvwf := hwf v hv
        cases hfv : v.fields with
        | named fn =>
          simp only [hfv]
          exact build_for_struct_isSome t v.ident name (RPat.variantPat name v.ident)
            (some (n, variants.map RVariant.ident)) fn
            (by rw [hfv] at hvwf; simpa [RFields.wfB] using hvwf)
        | unnamed m =>
          simp only [hfv]
          exact build_for_tuple_isSome t v.ident name (RPat.variantPat name v.ident)
            (some (n, variants.map RVariant.ident)) m
        | unit =>
          simp only [hfv]
          exact build_for_unit_isSome t v.ident name (RPat.variantPat name v.ident)
            (some (n, variants.map RVariant.ident)))
      0
    obtain ⟨ls, hls⟩ := Option.isSome_iff_exists.mp harms
    obtain ⟨sig, hsig⟩ :=
      Option.isSome_iff_exists.mp (build_signature_isSome t ls.flatten)
    simp only [Trait.generate_body]
    rw [show variants.enum = List.enumFrom 0 variants from rfl, hls]
    simp [hsig]
  | unionData => rfl

theorem implLoop_isSome (generics : Option (List Generic)) (input : RDeriveInput)
    (h : input.data.wfB = true) :
    ∀ ts : List Trait, (implLoop generics input ts).isSome = true := by
  intro ts
  induction ts with
  | nil => rfl
  | cons t rest ih =>
    obtain ⟨r, hr⟩ :=
      Option.isSome_iff_exists.mp (generate_body_isSome t input.ident input.data h)
    obtain ⟨path, hpath⟩ := trait_path_some t
    obtain ⟨r2, hr2⟩ := Option.isSome_iff_exists.mp ih
    unfold implLoop
    rw [hr]
    cases r with
    | error e => rfl
    | ok body =>
      rw [hpath, hr2]
      cases r2 <;> rfl

/-- C10: generation is total — the two panic points are unreachable. Every
trait-path string parses (`Trait::path`'s `expect` succeeds for all eight
traits); `build_for_struct`'s `expect` on a field name succeeds whenever
every named field carries a name, which `syn` guarantees for parsed items;
and under that invariant `derive_where_internal` always returns a value —
an `Ok` output or a structured `Err` — never `none` (the panic marker). -/
theorem c10_no_panic :
    (∀ t : Trait, (Trait.path t).isSome = true) ∧
    (∀ (t : Trait) (dbg item : String) (pattern : RPat)
        (variants : Option (Nat × List String)) (fn : RFieldsNamed),
      (fn.named.all fun fd => fd.ident.isSome) = true →
      (t.build_for_struct dbg item pattern variants fn).isSome = true) ∧
    (∀ (attr : List Tok) (item : Except Err RDeriveInput),
      (∀ input, item = .ok input → input.data.wfB = true) →
      (derive_where_internal attr item).isSome = true) := by
  refine ⟨?_, build_for_struct_isSome, ?_⟩
  · intro t; cases t <;> rfl
  · intro attr item hwf
    unfold derive_where_internal
    cases hdw : DeriveWhere.parse attr with
    | error e => rfl
    | ok dw =>
      cases item with
      | error e => rfl
      | ok input =>
        obtain ⟨r, hr⟩ := Option.isSome_iff_exists.mp
          (implLoop_isSome dw.generics input (hwf input rfl) dw.traits)
        show (((match implLoop dw.generics input dw.traits with
          | none => none
          | some (.error e) => some (.error e)
          | some (.ok impls) =>
            some (.ok ({ item := input, impls := impls } : ROutput))) :
          Option (Except Err ROutput))).isSome = true
        rw [hr]
        cases r with
        | error e => rfl
        | ok impls => rfl

/-- Witness for `c10_no_panic`: a concrete run over a named-field struct
returns a value. -/
theorem c10_witness :
    (derive_where_internal [.ident "Clone"]
      (.ok ⟨"Test", none, .structData (.named ⟨[⟨some "a"⟩]⟩)⟩)).isSome = true :=
  c10_no_panic.2.2 [.ident "Clone"]
    (.ok ⟨"Test", none, .structData (.named ⟨[⟨some "a"⟩]⟩)⟩)
    (fun input h => by cases h; rfl)

end DeriveWhereProof
